import Mathlib

/-!
Shallow embedding of the recitation-validation and session-statistics core
of the Quran mobile application.

Strings are modelled as `List Char` (JavaScript strings are sequences of
UTF-16 code units; every character handled by this core lies in the Basic
Multilingual Plane, so code units and code points coincide). JavaScript
floating-point numbers are modelled as `ℚ`.

Embedded source locations:
* `removeDiacritics`, `calculateSimilarity`, `validateRecitation` —
  `src/services/QuranDatabase.ts`
* `getStats` (streak and aggregate statistics) — `src/screens/ProgressScreen.tsx`
* `endSession` (session-history append with FIFO cap) —
  `src/context/BikeModeContext.tsx`
-/

/-- One word of text, as a list of characters. -/
abbrev Word := List Char

/-- The fixed list of Arabic diacritic code points removed by
`removeDiacritics` in `QuranDatabase.ts` (U+064B–U+0650, U+0651, U+0652,
U+0670, U+0656–U+065F assortment, in the source order). -/
def diacritics : List Char :=
  [Char.ofNat 0x064E, Char.ofNat 0x064F, Char.ofNat 0x0650,
   Char.ofNat 0x064B, Char.ofNat 0x064C, Char.ofNat 0x064D,
   Char.ofNat 0x0652, Char.ofNat 0x0651, Char.ofNat 0x0670,
   Char.ofNat 0x0656, Char.ofNat 0x0657, Char.ofNat 0x0659,
   Char.ofNat 0x065A, Char.ofNat 0x065B, Char.ofNat 0x065C,
   Char.ofNat 0x065D, Char.ofNat 0x065E, Char.ofNat 0x065F]

/-- Embedding of `QuranDatabaseClass.removeDiacritics`: for each diacritic in
turn, remove every occurrence of it from the running result
(`result.replace(new RegExp(diacritic, 'g'), '')` on a single character is
exactly removal of all its occurrences). -/
def removeDiacritics (text : List Char) : List Char :=
  diacritics.foldl (fun result d => result.filter (fun c => decide (c ≠ d))) text

/-- Embedding of `QuranDatabaseClass.calculateSimilarity`. Exact equality
gives 1.0; equality after diacritic removal gives 0.9; otherwise the score is
the number of index-aligned equal characters divided by the longer normalized
length (the `maxLen === 0` guard of the source is kept, although it is
unreachable: equal empty normalized strings are caught by the 0.9 branch). -/
def calculateSimilarity (word1 word2 : Word) : ℚ :=
  if word1 = word2 then 1 else
  let clean1 := removeDiacritics word1
  let clean2 := removeDiacritics word2
  if clean1 = clean2 then 9/10 else
  let maxLen := max clean1.length clean2.length
  if maxLen = 0 then 0 else
  (((clean1.zip clean2).filter (fun p => decide (p.1 = p.2))).length : ℚ) / (maxLen : ℚ)

/-- Modelled from the spec: unit-cost Levenshtein edit distance (insertion,
deletion, substitution, no transposition), the metric §4.2 of the
specification prescribes for the similarity score. The source code does not
contain this computation; it is defined here only to compare the
specification's formula with the implemented one. -/
def levenshteinSpec : List Char → List Char → Nat
  | [], ys => ys.length
  | x :: xs, [] => (x :: xs).length
  | x :: xs, y :: ys =>
    if x = y then levenshteinSpec xs ys
    else 1 + min (levenshteinSpec xs (y :: ys))
              (min (levenshteinSpec (x :: xs) ys) (levenshteinSpec xs ys))
termination_by xs ys => xs.length + ys.length
decreasing_by all_goals simp_arith

/-- The number of index-aligned positions at which the two strings carry the
same character (characters beyond the shorter length never match). -/
def posMatches : List Char → List Char → Nat
  | x :: xs, y :: ys => (if x = y then 1 else 0) + posMatches xs ys
  | _, _ => 0

/-- Mistake classification of `MistakeInfo.type` in `QuranDatabase.ts`. -/
inductive MistakeType
  | pronunciation
  | omission
  | addition
deriving DecidableEq

/-- Severity levels of `MistakeInfo.severity` in `QuranDatabase.ts`. -/
inductive Severity
  | low
  | medium
  | high
deriving DecidableEq

/-- Embedding of the `MistakeInfo` record of `QuranDatabase.ts`; the optional
`expected` and `recited` fields are absent for `addition` mistakes. -/
structure MistakeInfo where
  type : MistakeType
  expected : Option Word
  recited : Option Word
  position : Nat
  severity : Severity
deriving DecidableEq

/-- Embedding of the `VerseInfo` record of `QuranDatabase.ts`. -/
structure VerseInfo where
  textArabic : List Char
  textTransliteration : List Char
  textEnglish : List Char
  words : List Word
  wordCount : Nat
deriving DecidableEq

/-- Embedding of the `ValidationResult` record of `QuranDatabase.ts`;
`accuracy` is the floating-point percentage, modelled as a rational. -/
structure ValidationResult where
  isValid : Bool
  accuracy : ℚ
  mistakes : List MistakeInfo
  missingWords : List Word
  extraWords : List Word
deriving DecidableEq

/-- Whitespace test used by the tokenizer. JavaScript `\s` also matches
further Unicode space characters; only these four ASCII separators are
modelled, which is immaterial to the claims (they quantify over the token
list that results). -/
def isWsChar (c : Char) : Bool :=
  c == ' ' || c == '\t' || c == '\n' || c == '\r'

/-- Embedding of `recitedText.split(/\s+/).filter(word => word.length > 0)`:
splitting at every whitespace character and then discarding empty tokens
yields exactly the maximal whitespace-free runs, which is what splitting on
whitespace runs plus the same filter produces. -/
def tokenize (text : List Char) : List Word :=
  (List.splitOnP isWsChar text).filter (fun w => decide (0 < w.length))

/-- Embedding of the body of the `expectedWords.forEach` loop of
`validateRecitation`, for one canonical word `iw.2` at index `iw.1`: an
`omission` mistake when the recited sequence is too short, a `pronunciation`
mistake when the aligned recited word scores below the 0.7 similarity
threshold (severity `high` below 0.3, else `medium`), and no mistake
otherwise. -/
def checkWord (recitedWords : List Word) (iw : Nat × Word) : Option MistakeInfo :=
  if recitedWords.length ≤ iw.1 then
    some ⟨MistakeType.omission, some iw.2, none, iw.1, Severity.high⟩
  else
    let recitedWord := recitedWords.getD iw.1 []
    let sim := calculateSimilarity iw.2 recitedWord
    if sim < 7/10 then
      some ⟨MistakeType.pronunciation, some iw.2, some recitedWord, iw.1,
            if sim < 3/10 then Severity.high else Severity.medium⟩
    else
      none

/-- The push into `missingWords` performed by the same loop iteration: the
canonical word itself, whenever the recited sequence is too short to reach
its index. -/
def missCheck (recitedWords : List Word) (iw : Nat × Word) : Option Word :=
  if recitedWords.length ≤ iw.1 then some iw.2 else none

/-- The single `addition` mistake pushed when the recitation has surplus
words; its position is the canonical word count. -/
def additionMistake (n : Nat) : MistakeInfo :=
  ⟨MistakeType.addition, none, none, n, Severity.medium⟩

/-- The `mistakes` pushed by the `forEach` loop of `validateRecitation` over
the canonical words `e`, against recited words `r`, in loop order. -/
def mainMistakes (e r : List Word) : List MistakeInfo :=
  e.enum.filterMap (checkWord r)

/-- The `missingWords` accumulated by the same loop. -/
def missingOf (e r : List Word) : List Word :=
  e.enum.filterMap (missCheck r)

/-- The `extraWords` of `validateRecitation`: the recited words beyond the
canonical length, when there are any. -/
def extraOf (e r : List Word) : List Word :=
  if e.length < r.length then r.drop e.length else []

/-- The full `mistakes` array of `validateRecitation`: the loop's mistakes
followed by the single `addition` mistake when the recitation is too long. -/
def mistakesOf (e r : List Word) : List MistakeInfo :=
  mainMistakes e r ++
    (if e.length < r.length then [additionMistake e.length] else [])

/-- The count `mistakes.filter(m => m.type === 'pronunciation').length` used
in the accuracy computation of `validateRecitation`. -/
def pronCountOf (e r : List Word) : Nat :=
  ((mistakesOf e r).filter (fun m => decide (m.type = MistakeType.pronunciation))).length

/-- The accuracy percentage of `validateRecitation`:
`(correctWords / expectedWords.length) * 100` with
`correctWords = expectedWords.length - missingWords.length - pronCount`. -/
def accuracyOf (e r : List Word) : ℚ :=
  ((((e.length : ℤ) - ((missingOf e r).length : ℤ) - (pronCountOf e r : ℤ)) : ℚ)
    / (e.length : ℚ)) * 100

/-- Embedding of `QuranDatabaseClass.validateRecitation`. The verse store
(`this.verses`, a map keyed by the string `"surah:verse"`) is abstracted as a
function from the two numbers to an optional `VerseInfo`; the key format is
injective on number pairs, so nothing is lost. The `forEach` loop over
`expectedWords` pushes into `mistakes` and `missingWords`; it is rendered as
two `filterMap`s over the indexed word list (`mainMistakes`, `missingOf`),
which generate exactly the same pushes in the same order. -/
def validateRecitation (verses : Nat → Nat → Option VerseInfo)
    (surahNumber verseNumber : Nat) (recitedText : List Char) : ValidationResult :=
  match verses surahNumber verseNumber with
  | none =>
    { isValid := false, accuracy := 0, mistakes := [], missingWords := [], extraWords := [] }
  | some expectedVerse =>
    let e := expectedVerse.words
    let r := tokenize recitedText
    { isValid := decide (70 ≤ accuracyOf e r),
      accuracy := accuracyOf e r,
      mistakes := mistakesOf e r,
      missingWords := missingOf e r,
      extraWords := extraOf e r }

/-- JavaScript `Math.round`: the nearest integer, halves rounding toward
positive infinity, i.e. the floor of the argument plus one half. -/
def mathRound (q : ℚ) : ℤ := ⌊q + 1/2⌋

/-- The session fields consumed by `getStats` in `ProgressScreen.tsx`.
`startDay` is the session's `startTime` truncated to local midnight
(`setHours(0,0,0,0)`), modelled as the index of that calendar day. -/
structure SessionP where
  startDay : Int
  totalDuration : ℚ
  versesRecited : Nat
  mistakesDetected : Nat
  pausesDetected : Nat
  averageAccuracy : ℚ
deriving DecidableEq

/-- The statistics record returned by `getStats` in `ProgressScreen.tsx`. -/
structure Stats where
  totalSessions : Nat
  totalTime : ℚ
  totalVerses : Nat
  averageAccuracy : ℚ
  totalMistakes : Nat
  totalPauses : Nat
  streakDays : Nat
deriving DecidableEq

/-- Insert a value into a weakly descending list, keeping it descending. -/
def insertDesc (x : Int) : List Int → List Int
  | [] => [x]
  | y :: ys => if y ≤ x then x :: y :: ys else y :: insertDesc x ys

/-- Sort a list of integers into weakly descending order. The source sorts
the session array with the comparator `(a, b) => b.startTime - a.startTime`;
a weakly descending list of integers is uniquely determined by its multiset,
so any comparison sort is an exact model of the day sequence the loop then
consumes. -/
def sortDesc (l : List Int) : List Int := l.foldr insertDesc []

/-- Embedding of the streak `for` loop of `getStats`: walk the sessions in
descending day order; a session on the current day extends the streak and
moves the cursor one day back, a session on an earlier day ends the loop, and
a session on a later (duplicate) day is skipped. -/
def streakLoop : List Int → Int → Nat
  | [], _ => 0
  | d :: rest, cur =>
    if d = cur then streakLoop rest (cur - 1) + 1
    else if d < cur then 0
    else streakLoop rest cur

/-- Embedding of `getStats` in `ProgressScreen.tsx`, applied to the filtered
session list; `today` is the current calendar day index. The `reduce` sums
are rendered as left folds and `Math.round` as `mathRound`. -/
def getStats (today : Int) (sessions : List SessionP) : Stats :=
  if sessions.length = 0 then
    { totalSessions := 0, totalTime := 0, totalVerses := 0, averageAccuracy := 0,
      totalMistakes := 0, totalPauses := 0, streakDays := 0 }
  else
    let totalTime := sessions.foldl (fun sum s => sum + s.totalDuration) 0
    let totalVerses := sessions.foldl (fun sum s => sum + s.versesRecited) 0
    let totalMistakes := sessions.foldl (fun sum s => sum + s.mistakesDetected) 0
    let totalPauses := sessions.foldl (fun sum s => sum + s.pausesDetected) 0
    let averageAccuracy :=
      sessions.foldl (fun sum s => sum + s.averageAccuracy) 0 / (sessions.length : ℚ)
    let streakDays := streakLoop (sortDesc (sessions.map (fun s => s.startDay))) today
    { totalSessions := sessions.length, totalTime := totalTime,
      totalVerses := totalVerses, averageAccuracy := (mathRound averageAccuracy : ℚ),
      totalMistakes := totalMistakes, totalPauses := totalPauses,
      streakDays := streakDays }

/-- Embedding of the `BikeModeSession` record of `BikeModeContext.tsx`;
timestamps are epoch milliseconds modelled as integers. -/
structure BikeSession where
  id : List Char
  startTime : Int
  endTime : Option Int
  versesRecited : Nat
  pausesDetected : Nat
  mistakesDetected : Nat
  totalDuration : Int
  averageAccuracy : ℚ
  surahsCompleted : List Nat
deriving DecidableEq

/-- The provider state touched by `endSession`: the open session (if any) and
the stored history, most recent first. -/
structure BikeModeState where
  currentSession : Option BikeSession
  sessionHistory : List BikeSession
deriving DecidableEq

/-- The closed session built inside `endSession`: `endTime` is set to now and
`totalDuration` becomes `endTime - startTime`, falling back to
`Date.now() - startTime` when the open session carried no `endTime`. -/
def closeSession (now : Int) (cs : BikeSession) : BikeSession :=
  { cs with
    endTime := some now,
    totalDuration :=
      match cs.endTime with
      | some e => e - cs.startTime
      | none => now - cs.startTime }

/-- Embedding of `endSession` in `BikeModeContext.tsx`: when a session is
open, close it, prepend it to the history, keep only the first 50 entries
(`[endedSession, ...sessionHistory].slice(0, 50)`), and clear the current
session; otherwise do nothing. -/
def endSession (now : Int) (st : BikeModeState) : BikeModeState :=
  match st.currentSession with
  | none => st
  | some cs =>
    { currentSession := none,
      sessionHistory := (closeSession now cs :: st.sessionHistory).take 50 }

/-! ### Lemmas about the normalizer -/

/-- Folding single-character removals over a list of banned characters is the
same as one filter keeping the characters outside that list. -/
theorem foldl_filter_eq_filter (ds : List Char) (t : List Char) :
    ds.foldl (fun result d => result.filter (fun c => decide (c ≠ d))) t
      = t.filter (fun c => decide (c ∉ ds)) := by
  induction ds generalizing t with
  | nil => simp
  | cons d ds ih =>
    rw [List.foldl_cons, ih, List.filter_filter]
    congr 1
    funext c
    by_cases h1 : c = d <;> by_cases h2 : c ∈ ds <;> simp [h1, h2]

/-- `removeDiacritics` is one pass of filtering out the diacritic set. -/
theorem removeDiacritics_eq_filter (t : List Char) :
    removeDiacritics t = t.filter (fun c => decide (c ∉ diacritics)) :=
  foldl_filter_eq_filter diacritics t

/-- C9: the diacritic-stripping normalization is idempotent — one pass leaves
no character of the fixed diacritic set behind, so a second pass removes
nothing: `removeDiacritics (removeDiacritics x) = removeDiacritics x`. -/
theorem removeDiacritics_idempotent (t : List Char) :
    removeDiacritics (removeDiacritics t) = removeDiacritics t := by
  rw [removeDiacritics_eq_filter, removeDiacritics_eq_filter, List.filter_filter]
  congr 1
  funext c
  exact Bool.and_self _

/-! ### Lemmas about the similarity score -/

/-- The character-level match count of the source loop, expressed through the
truncating `zip` of the two strings. -/
theorem posMatches_eq_zip_count (xs ys : List Char) :
    posMatches xs ys = ((xs.zip ys).filter (fun p => decide (p.1 = p.2))).length := by
  induction xs generalizing ys with
  | nil => simp [posMatches]
  | cons x xs ih =>
    cases ys with
    | nil => simp [posMatches]
    | cons y ys =>
      by_cases h : x = y <;>
        simp [posMatches, h, ih, Nat.add_comm]

/-- C2 (amended): when both normalized forms are empty the similarity is 1.0
for exactly equal inputs and 0.9 otherwise — the equal-normalized-forms
branch fires before the division-guard branch, so the 0.0 case of the
specification is unreachable. -/
theorem calculateSimilarity_empty_normalized (a b : Word)
    (ha : removeDiacritics a = []) (hb : removeDiacritics b = []) :
    calculateSimilarity a b = if a = b then 1 else 9/10 := by
  by_cases h : a = b
  · simp [calculateSimilarity, h]
  · simp [calculateSimilarity, h, ha, hb]

/-- Witness for `calculateSimilarity_empty_normalized`: two distinct single
diacritics (fatha and damma) normalize to the empty string and score 0.9. -/
theorem calculateSimilarity_empty_normalized_witness :
    removeDiacritics [Char.ofNat 0x064E] = [] ∧
    removeDiacritics [Char.ofNat 0x064F] = [] ∧
    calculateSimilarity [Char.ofNat 0x064E] [Char.ofNat 0x064F]
      = if ([Char.ofNat 0x064E] : Word) = [Char.ofNat 0x064F] then 1 else 9/10 :=
  ⟨by decide, by decide,
    calculateSimilarity_empty_normalized _ _ (by decide) (by decide)⟩

/-- C2 (counterexample): two distinct single diacritics have empty normalized
forms, yet their similarity is 0.9, not the 0.0 the claim states — the
`maxLen === 0` guard is dead code behind the 0.9 branch. -/
theorem calculateSimilarity_empty_normalized_not_zero :
    removeDiacritics [Char.ofNat 0x064E] = [] ∧
    removeDiacritics [Char.ofNat 0x064F] = [] ∧
    calculateSimilarity [Char.ofNat 0x064E] [Char.ofNat 0x064F] ≠ 0 := by
  have h1 : removeDiacritics [Char.ofNat 0x064E] = [] := by decide
  have h2 : removeDiacritics [Char.ofNat 0x064F] = [] := by decide
  refine ⟨h1, h2, ?_⟩
  have hne : ([Char.ofNat 0x064E] : Word) ≠ [Char.ofNat 0x064F] := by decide
  rw [calculateSimilarity, if_neg hne]
  simp only [h1, h2, if_pos rfl]
  norm_num

/-- C1 (amended): for inputs that differ both exactly and after
normalization, the score is the positional character-match ratio — one minus
the positional mismatch distance (aligned disagreements plus the length
difference) over the longer normalized length — not one minus the Levenshtein
distance over that length. -/
theorem calculateSimilarity_positional (a b : Word)
    (hab : a ≠ b) (hn : removeDiacritics a ≠ removeDiacritics b) :
    calculateSimilarity a b =
      1 - (((max (removeDiacritics a).length (removeDiacritics b).length : Nat) : ℚ)
            - (posMatches (removeDiacritics a) (removeDiacritics b) : ℚ))
          / ((max (removeDiacritics a).length (removeDiacritics b).length : Nat) : ℚ) := by
  have hmax : max (removeDiacritics a).length (removeDiacritics b).length ≠ 0 := by
    intro h
    rcases Nat.max_eq_zero_iff.mp h with ⟨h1, h2⟩
    exact hn ((List.length_eq_zero.mp h1).trans (List.length_eq_zero.mp h2).symm)
  have hmaxQ : ((max (removeDiacritics a).length (removeDiacritics b).length : Nat) : ℚ) ≠ 0 := by
    exact_mod_cast hmax
  simp only [calculateSimilarity, if_neg hab, if_neg hn, if_neg hmax]
  rw [posMatches_eq_zip_count]
  generalize hM : ((max (removeDiacritics a).length (removeDiacritics b).length : Nat) : ℚ) = M at hmaxQ ⊢
  field_simp

/-- Witness for `calculateSimilarity_positional`: on the plain strings "abc"
and "bc" the score is the positional ratio 1 - 3/3 = 0. -/
theorem calculateSimilarity_positional_witness :
    calculateSimilarity ['a','b','c'] ['b','c'] =
      1 - (((max (removeDiacritics ['a','b','c']).length (removeDiacritics ['b','c']).length : Nat) : ℚ)
            - (posMatches (removeDiacritics ['a','b','c']) (removeDiacritics ['b','c']) : ℚ))
          / ((max (removeDiacritics ['a','b','c']).length (removeDiacritics ['b','c']).length : Nat) : ℚ) :=
  calculateSimilarity_positional _ _ (by decide) (by decide)

/-- C1 (counterexample): on "abc" versus "bc" (unequal, normalization
changes nothing) the code returns 0, while the Levenshtein formula of the
claim gives 1 - 1/3 = 2/3. -/
theorem calculateSimilarity_not_levenshtein :
    (['a','b','c'] : Word) ≠ ['b','c'] ∧
    removeDiacritics ['a','b','c'] ≠ removeDiacritics ['b','c'] ∧
    calculateSimilarity ['a','b','c'] ['b','c'] ≠
      1 - (levenshteinSpec (removeDiacritics ['a','b','c']) (removeDiacritics ['b','c']) : ℚ)
        / ((max (removeDiacritics ['a','b','c']).length (removeDiacritics ['b','c']).length : Nat) : ℚ) := by
  have h1 : removeDiacritics ['a','b','c'] = ['a','b','c'] := by decide
  have h2 : removeDiacritics ['b','c'] = ['b','c'] := by decide
  refine ⟨by decide, by decide, ?_⟩
  have hl : levenshteinSpec ['a','b','c'] ['b','c'] = 1 := by
    simp [levenshteinSpec]
  have hsim : calculateSimilarity ['a','b','c'] ['b','c'] = 0 := by
    simp [calculateSimilarity, h1, h2]
  rw [h1, h2, hl, hsim]
  norm_num

/-! ### Lemmas about the validator -/

/-- Unfolding of `validateRecitation` when the verse is absent. -/
theorem validateRecitation_none {verses : Nat → Nat → Option VerseInfo}
    {s v : Nat} {text : List Char} (h : verses s v = none) :
    validateRecitation verses s v text =
      { isValid := false, accuracy := 0, mistakes := [], missingWords := [],
        extraWords := [] } := by
  simp [validateRecitation, h]

/-- Unfolding of `validateRecitation` when the verse is present. -/
theorem validateRecitation_some {verses : Nat → Nat → Option VerseInfo}
    {s v : Nat} {text : List Char} {vi : VerseInfo} (h : verses s v = some vi) :
    validateRecitation verses s v text =
      { isValid := decide (70 ≤ accuracyOf vi.words (tokenize text)),
        accuracy := accuracyOf vi.words (tokenize text),
        mistakes := mistakesOf vi.words (tokenize text),
        missingWords := missingOf vi.words (tokenize text),
        extraWords := extraOf vi.words (tokenize text) } := by
  simp [validateRecitation, h]

/-- Unfolding of the per-word check at an explicit index/word pair. -/
theorem checkWord_pair (r : List Word) (n : Nat) (w : Word) :
    checkWord r (n, w) =
      if r.length ≤ n then
        some ⟨MistakeType.omission, some w, none, n, Severity.high⟩
      else if calculateSimilarity w (r.getD n []) < 7/10 then
        some ⟨MistakeType.pronunciation, some w, some (r.getD n []), n,
              if calculateSimilarity w (r.getD n []) < 3/10 then Severity.high
              else Severity.medium⟩
      else none := rfl

/-- Unfolding of the missing-word check at an explicit index/word pair. -/
theorem missCheck_pair (r : List Word) (n : Nat) (w : Word) :
    missCheck r (n, w) = if r.length ≤ n then some w else none := rfl

/-- Any mistake the per-word check emits sits at the word's own index and is
never an `addition`. -/
theorem checkWord_some {r : List Word} {iw : Nat × Word} {m : MistakeInfo}
    (h : checkWord r iw = some m) :
    m.position = iw.1 ∧ m.type ≠ MistakeType.addition := by
  rw [show iw = (iw.1, iw.2) from rfl, checkWord_pair] at h
  split_ifs at h <;> injection h with h <;> subst h <;> exact ⟨rfl, by simp⟩

/-- Each canonical index contributes at most one entry to `missingWords` plus
the pronunciation mistakes, so together they never exceed the number of
canonical words. -/
theorem miss_pron_count_le (r : List Word) (e : List Word) :
    ∀ n : Nat,
      ((List.enumFrom n e).filterMap (missCheck r)).length
        + (((List.enumFrom n e).filterMap (checkWord r)).filter
            (fun m => decide (m.type = MistakeType.pronunciation))).length
      ≤ e.length := by
  induction e with
  | nil => intro n; simp
  | cons w ws ih =>
    intro n
    have hih := ih (n + 1)
    rw [List.enumFrom_cons, List.length_cons]
    by_cases h1 : r.length ≤ n
    · have hm : missCheck r (n, w) = some w := by
        rw [missCheck_pair, if_pos h1]
      have hc : checkWord r (n, w) =
          some ⟨MistakeType.omission, some w, none, n, Severity.high⟩ := by
        rw [checkWord_pair, if_pos h1]
      rw [List.filterMap_cons_some hm, List.filterMap_cons_some hc,
          List.filter_cons_of_neg (by simp), List.length_cons]
      omega
    · have hm : missCheck r (n, w) = none := by
        rw [missCheck_pair, if_neg h1]
      rw [List.filterMap_cons_none hm]
      by_cases h2 : calculateSimilarity w (r.getD n []) < 7/10
      · have hc : checkWord r (n, w) =
            some ⟨MistakeType.pronunciation, some w, some (r.getD n []), n,
              if calculateSimilarity w (r.getD n []) < 3/10 then Severity.high
              else Severity.medium⟩ := by
          rw [checkWord_pair, if_neg h1, if_pos h2]
        rw [List.filterMap_cons_some hc, List.filter_cons_of_pos (by simp),
            List.length_cons]
        omega
      · have hc : checkWord r (n, w) = none := by
          rw [checkWord_pair, if_neg h1, if_neg h2]
        rw [List.filterMap_cons_none hc]
        omega

/-- Every mistake the loop emits for canonical words indexed from `n` has its
position inside the index range of those words. -/
theorem mainMistakes_mem_bounds {r : List Word} {e : List Word} {n : Nat}
    {m : MistakeInfo} (hm : m ∈ (List.enumFrom n e).filterMap (checkWord r)) :
    n ≤ m.position ∧ m.position < n + e.length ∧ m.type ≠ MistakeType.addition := by
  rcases List.mem_filterMap.mp hm with ⟨iw, hiw, hck⟩
  rcases checkWord_some hck with ⟨hpos, htype⟩
  rcases iw with ⟨i, w⟩
  rcases List.mem_enumFrom hiw with ⟨h1, h2, _⟩
  exact ⟨hpos ▸ h1, hpos ▸ h2, htype⟩

/-- The loop's mistakes carry strictly increasing positions: each index emits
at most one mistake, tagged with that index. -/
theorem mainMistakes_pairwise (r : List Word) (e : List Word) :
    ∀ n : Nat, ((List.enumFrom n e).filterMap (checkWord r)).Pairwise
      (fun m₁ m₂ => m₁.position < m₂.position) := by
  induction e with
  | nil => intro n; simp
  | cons w ws ih =>
    intro n
    rw [List.enumFrom_cons, List.filterMap_cons]
    cases hc : checkWord r (n, w) with
    | none => exact ih (n + 1)
    | some m =>
      rw [List.pairwise_cons]
      refine ⟨fun m' hm' => ?_, ih (n + 1)⟩
      rcases checkWord_some hc with ⟨hpos, _⟩
      rcases mainMistakes_mem_bounds hm' with ⟨h1, _, _⟩
      simp only [hpos]
      omega

/-- The missing-word count plus the pronunciation-mistake count never exceeds
the canonical word count: the `addition` entry is not a pronunciation
mistake, and the loop contributes at most one of the two per index. -/
theorem miss_pron_le (e r : List Word) :
    (missingOf e r).length + pronCountOf e r ≤ e.length := by
  have hadd : ((mistakesOf e r).filter
        (fun m => decide (m.type = MistakeType.pronunciation)))
      = ((mainMistakes e r).filter
        (fun m => decide (m.type = MistakeType.pronunciation))) := by
    unfold mistakesOf
    rw [List.filter_append]
    by_cases hx : e.length < r.length
    · rw [if_pos hx]
      simp [additionMistake]
    · rw [if_neg hx]
      simp
  unfold pronCountOf
  rw [hadd]
  unfold missingOf mainMistakes
  rw [List.enum_eq_enumFrom]
  exact miss_pron_count_le r e 0

/-- The accuracy percentage always lies between 0 and 100 for a non-empty
canonical verse. -/
theorem accuracyOf_bounds (e r : List Word) (he : e ≠ []) :
    0 ≤ accuracyOf e r ∧ accuracyOf e r ≤ 100 := by
  have hkey := miss_pron_le e r
  have hL : e.length ≠ 0 := fun h => he (List.length_eq_zero.mp h)
  have hL0 : (0 : ℚ) < (e.length : ℚ) := by
    exact_mod_cast Nat.pos_of_ne_zero hL
  have hnum0 : (0 : ℚ) ≤
      (((e.length : ℤ) - ((missingOf e r).length : ℤ) - (pronCountOf e r : ℤ)) : ℚ) := by
    have : (0 : ℤ) ≤ (e.length : ℤ) - ((missingOf e r).length : ℤ) - (pronCountOf e r : ℤ) := by
      omega
    exact_mod_cast this
  have hnum1 :
      (((e.length : ℤ) - ((missingOf e r).length : ℤ) - (pronCountOf e r : ℤ)) : ℚ)
        ≤ (e.length : ℚ) := by
    have : (e.length : ℤ) - ((missingOf e r).length : ℤ) - (pronCountOf e r : ℤ)
        ≤ (e.length : ℤ) := by omega
    exact_mod_cast this
  unfold accuracyOf
  constructor
  · exact mul_nonneg (div_nonneg hnum0 hL0.le) (by norm_num)
  · rw [div_mul_eq_mul_div, div_le_iff₀ hL0]
    nlinarith

/-- C3: for a verse present in the corpus with a non-empty canonical word
list, the accuracy percentage lies in [0, 100]; the missing-word entries and
pronunciation mistakes occupy disjoint index ranges, so together they never
exceed the canonical word count. -/
theorem validateRecitation_accuracy_bounds (verses : Nat → Nat → Option VerseInfo)
    (s v : Nat) (vi : VerseInfo) (text : List Char)
    (hv : verses s v = some vi) (hw : vi.words ≠ []) :
    0 ≤ (validateRecitation verses s v text).accuracy ∧
    (validateRecitation verses s v text).accuracy ≤ 100 ∧
    (validateRecitation verses s v text).missingWords.length
      + ((validateRecitation verses s v text).mistakes.filter
          (fun m => decide (m.type = MistakeType.pronunciation))).length
      ≤ vi.words.length := by
  rw [validateRecitation_some hv]
  rcases accuracyOf_bounds vi.words (tokenize text) hw with ⟨h0, h1⟩
  refine ⟨h0, h1, ?_⟩
  have := miss_pron_le vi.words (tokenize text)
  unfold pronCountOf at this
  exact this

/-- A two-word verse fixture used by the witnesses. -/
def sampleVerse : VerseInfo :=
  { textArabic := [], textTransliteration := [], textEnglish := [],
    words := [['a'], ['b']], wordCount := 2 }

/-- A one-verse corpus fixture: verse 1:1 is `sampleVerse`. -/
def sampleVerses (s v : Nat) : Option VerseInfo :=
  if s = 1 ∧ v = 1 then some sampleVerse else none

/-- Witness for `validateRecitation_accuracy_bounds` on the sample corpus and
the recitation "a". -/
theorem validateRecitation_accuracy_bounds_witness :
    0 ≤ (validateRecitation sampleVerses 1 1 ['a']).accuracy ∧
    (validateRecitation sampleVerses 1 1 ['a']).accuracy ≤ 100 ∧
    (validateRecitation sampleVerses 1 1 ['a']).missingWords.length
      + ((validateRecitation sampleVerses 1 1 ['a']).mistakes.filter
          (fun m => decide (m.type = MistakeType.pronunciation))).length
      ≤ sampleVerse.words.length :=
  validateRecitation_accuracy_bounds sampleVerses 1 1 sampleVerse ['a'] rfl (by decide)

/-- C7: validating against a verse reference absent from the corpus returns
an invalid result with zero accuracy and empty mistakes, missing-word and
extra-word lists, with no exception path. -/
theorem validateRecitation_absent (verses : Nat → Nat → Option VerseInfo)
    (s v : Nat) (text : List Char) (h : verses s v = none) :
    (validateRecitation verses s v text).isValid = false ∧
    (validateRecitation verses s v text).accuracy = 0 ∧
    (validateRecitation verses s v text).mistakes = [] ∧
    (validateRecitation verses s v text).missingWords = [] ∧
    (validateRecitation verses s v text).extraWords = [] := by
  rw [validateRecitation_none h]
  exact ⟨rfl, rfl, rfl, rfl, rfl⟩

/-- Witness for `validateRecitation_absent`: the sample corpus has no verse
2:1. -/
theorem validateRecitation_absent_witness :
    (validateRecitation sampleVerses 2 1 ['a']).isValid = false ∧
    (validateRecitation sampleVerses 2 1 ['a']).accuracy = 0 ∧
    (validateRecitation sampleVerses 2 1 ['a']).mistakes = [] ∧
    (validateRecitation sampleVerses 2 1 ['a']).missingWords = [] ∧
    (validateRecitation sampleVerses 2 1 ['a']).extraWords = [] :=
  validateRecitation_absent sampleVerses 2 1 ['a'] (by simp [sampleVerses])

/-- C8: when the recitation has more words than the canonical verse, the
surplus trailing recited words become `extraWords` and exactly one `addition`
mistake is appended, at position equal to the canonical word count and with
severity `medium`; the surplus words are not enumerated as further
mistakes. -/
theorem validateRecitation_extra (verses : Nat → Nat → Option VerseInfo)
    (s v : Nat) (vi : VerseInfo) (text : List Char)
    (hv : verses s v = some vi)
    (hlen : vi.words.length < (tokenize text).length) :
    (validateRecitation verses s v text).extraWords
      = (tokenize text).drop vi.words.length ∧
    (validateRecitation verses s v text).mistakes.filter
        (fun m => decide (m.type = MistakeType.addition))
      = [additionMistake vi.words.length] ∧
    (validateRecitation verses s v text).mistakes.getLast?
      = some (additionMistake vi.words.length) := by
  rw [validateRecitation_some hv]
  refine ⟨?_, ?_, ?_⟩
  · unfold extraOf
    rw [if_pos hlen]
  · unfold mistakesOf
    rw [if_pos hlen, List.filter_append]
    have hmain : (mainMistakes vi.words (tokenize text)).filter
        (fun m => decide (m.type = MistakeType.addition)) = [] := by
      rw [List.filter_eq_nil_iff]
      intro m hm
      unfold mainMistakes at hm
      rw [List.enum_eq_enumFrom] at hm
      rcases mainMistakes_mem_bounds hm with ⟨_, _, htype⟩
      simpa using htype
    rw [hmain]
    simp [additionMistake]
  · unfold mistakesOf
    rw [if_pos hlen]
    exact List.getLast?_concat _

/-- Witness for `validateRecitation_extra`: reciting "a b c" against the
two-word sample verse leaves the trailing "c" as the surplus. -/
theorem validateRecitation_extra_witness :
    (validateRecitation sampleVerses 1 1 ['a', ' ', 'b', ' ', 'c']).extraWords
      = (tokenize ['a', ' ', 'b', ' ', 'c']).drop sampleVerse.words.length ∧
    (validateRecitation sampleVerses 1 1 ['a', ' ', 'b', ' ', 'c']).mistakes.filter
        (fun m => decide (m.type = MistakeType.addition))
      = [additionMistake sampleVerse.words.length] ∧
    (validateRecitation sampleVerses 1 1 ['a', ' ', 'b', ' ', 'c']).mistakes.getLast?
      = some (additionMistake sampleVerse.words.length) :=
  validateRecitation_extra sampleVerses 1 1 sampleVerse ['a', ' ', 'b', ' ', 'c']
    rfl (by decide)

/-- C10: the mistake list is strictly increasing in position — the loop emits
at most one mistake per canonical index in ascending order, and any
`addition` mistake sits at the canonical word count, beyond every loop
position. -/
theorem validateRecitation_mistakes_sorted (verses : Nat → Nat → Option VerseInfo)
    (s v : Nat) (vi : VerseInfo) (text : List Char)
    (hv : verses s v = some vi) :
    (validateRecitation verses s v text).mistakes.Pairwise
      (fun m₁ m₂ => m₁.position < m₂.position) ∧
    ∀ m ∈ (validateRecitation verses s v text).mistakes,
      m.type = MistakeType.addition → m.position = vi.words.length := by
  rw [validateRecitation_some hv]
  have hmainpw : (mainMistakes vi.words (tokenize text)).Pairwise
      (fun m₁ m₂ => m₁.position < m₂.position) := by
    unfold mainMistakes
    rw [List.enum_eq_enumFrom]
    exact mainMistakes_pairwise (tokenize text) vi.words 0
  constructor
  · unfold mistakesOf
    rw [List.pairwise_append]
    refine ⟨hmainpw, ?_, ?_⟩
    · split_ifs <;> simp
    · intro a ha b hb
      by_cases hx : vi.words.length < (tokenize text).length
      · rw [if_pos hx] at hb
        rcases List.mem_singleton.mp hb with rfl
        unfold mainMistakes at ha
        rw [List.enum_eq_enumFrom] at ha
        rcases mainMistakes_mem_bounds ha with ⟨_, hlt, _⟩
        simpa [additionMistake] using hlt
      · rw [if_neg hx] at hb
        exact absurd hb (List.not_mem_nil b)
  · intro m hm htype
    unfold mistakesOf at hm
    rcases List.mem_append.mp hm with hmain | hadd
    · unfold mainMistakes at hmain
      rw [List.enum_eq_enumFrom] at hmain
      rcases mainMistakes_mem_bounds hmain with ⟨_, _, hne⟩
      exact absurd htype hne
    · by_cases hx : vi.words.length < (tokenize text).length
      · rw [if_pos hx] at hadd
        rcases List.mem_singleton.mp hadd with rfl
        rfl
      · rw [if_neg hx] at hadd
        exact absurd hadd (List.not_mem_nil m)

/-- Witness for `validateRecitation_mistakes_sorted` on the sample corpus
with the recitation "a b c". -/
theorem validateRecitation_mistakes_sorted_witness :
    (validateRecitation sampleVerses 1 1 ['a', ' ', 'b', ' ', 'c']).mistakes.Pairwise
      (fun m₁ m₂ => m₁.position < m₂.position) ∧
    ∀ m ∈ (validateRecitation sampleVerses 1 1 ['a', ' ', 'b', ' ', 'c']).mistakes,
      m.type = MistakeType.addition → m.position = sampleVerse.words.length :=
  validateRecitation_mistakes_sorted sampleVerses 1 1 sampleVerse
    ['a', ' ', 'b', ' ', 'c'] rfl

/-! ### Lemmas about the session statistics -/

/-- Membership is preserved by descending insertion. -/
theorem mem_insertDesc {x a : Int} {l : List Int} :
    a ∈ insertDesc x l ↔ a = x ∨ a ∈ l := by
  induction l with
  | nil => simp [insertDesc]
  | cons y ys ih =>
    by_cases h : y ≤ x
    · simp [insertDesc, h]
    · simp [insertDesc, h, ih]
      tauto

/-- Descending insertion keeps a weakly descending list weakly descending. -/
theorem sortedDesc_insertDesc {x : Int} {l : List Int}
    (h : l.Pairwise (fun a b => b ≤ a)) :
    (insertDesc x l).Pairwise (fun a b => b ≤ a) := by
  induction l with
  | nil => simp [insertDesc]
  | cons y ys ih =>
    rcases List.pairwise_cons.mp h with ⟨hy, hys⟩
    by_cases hxy : y ≤ x
    · simp only [insertDesc, if_pos hxy]
      rw [List.pairwise_cons]
      refine ⟨?_, h⟩
      intro b hb
      rcases List.mem_cons.mp hb with rfl | hbys
      · exact hxy
      · exact le_trans (hy b hbys) hxy
    · simp only [insertDesc, if_neg hxy]
      rw [List.pairwise_cons]
      refine ⟨?_, ih hys⟩
      intro b hb
      rcases mem_insertDesc.mp hb with rfl | hbys
      · omega
      · exact hy b hbys

/-- The descending sort has the same members as its input. -/
theorem mem_sortDesc {a : Int} {l : List Int} : a ∈ sortDesc l ↔ a ∈ l := by
  induction l with
  | nil => simp [sortDesc]
  | cons x xs ih =>
    rw [show sortDesc (x :: xs) = insertDesc x (sortDesc xs) from rfl,
        mem_insertDesc, ih, List.mem_cons]

/-- The descending sort is weakly descending. -/
theorem sortDesc_pairwise (l : List Int) :
    (sortDesc l).Pairwise (fun a b => b ≤ a) := by
  induction l with
  | nil => simp [sortDesc]
  | cons x xs ih =>
    exact sortedDesc_insertDesc ih

/-- Characterization of the streak loop on a weakly descending day list: the
result `s` is exactly the length of the run of covered days walking back from
the cursor — every day strictly inside the run is in the list, and the first
day past the run is not. -/
theorem streakLoop_spec (l : List Int) :
    ∀ cur : Int, l.Pairwise (fun a b => b ≤ a) →
      (∀ k : Nat, k < streakLoop l cur → (cur - k) ∈ l) ∧
      (cur - (streakLoop l cur : Int)) ∉ l := by
  induction l with
  | nil =>
    intro cur _
    simp [streakLoop]
  | cons d rest ih =>
    intro cur hpw
    rcases List.pairwise_cons.mp hpw with ⟨hd, hrest⟩
    by_cases h1 : d = cur
    · subst h1
      have hs : streakLoop (d :: rest) d = streakLoop rest (d - 1) + 1 := by
        simp [streakLoop]
      rcases ih (d - 1) hrest with ⟨ihcov, ihnot⟩
      rw [hs]
      constructor
      · intro k hk
        cases k with
        | zero => simp
        | succ j =>
          have hj : j < streakLoop rest (d - 1) := by omega
          have hmem := ihcov j hj
          have heq : d - ((j + 1 : Nat) : Int) = (d - 1) - (j : Int) := by
            push_cast
            ring
          rw [heq]
          exact List.mem_cons_of_mem _ hmem
      · intro hmem
        rcases List.mem_cons.mp hmem with heq | hmem'
        · omega
        · apply ihnot
          have heq : d - ((streakLoop rest (d - 1) + 1 : Nat) : Int)
              = (d - 1) - (streakLoop rest (d - 1) : Int) := by
            push_cast
            ring
          rwa [heq] at hmem'
    · by_cases h2 : d < cur
      · have hs : streakLoop (d :: rest) cur = 0 := by
          simp [streakLoop, h1, h2]
        rw [hs]
        refine ⟨fun k hk => absurd hk (by omega), ?_⟩
        intro hmem
        rcases List.mem_cons.mp hmem with heq | hmem'
        · omega
        · have := hd _ hmem'
          omega
      · have hs : streakLoop (d :: rest) cur = streakLoop rest cur := by
          simp [streakLoop, h1, h2]
        rw [hs]
        rcases ih cur hrest with ⟨ihcov, ihnot⟩
        constructor
        · intro k hk
          exact List.mem_cons_of_mem _ (ihcov k hk)
        · intro hmem
          rcases List.mem_cons.mp hmem with heq | hmem'
          · omega
          · exact ihnot hmem'

/-- C5: `streakDays` counts consecutive calendar days walking backward from
today, each covered by at least one session's start day, and stops at the
first uncovered day: every day of the counted run is some session's day, and
the day just past the run belongs to no session. -/
theorem getStats_streak_spec (today : Int) (sessions : List SessionP) :
    (∀ k : Nat, k < (getStats today sessions).streakDays →
      (today - k) ∈ sessions.map (fun s => s.startDay)) ∧
    (today - ((getStats today sessions).streakDays : Int))
      ∉ sessions.map (fun s => s.startDay) := by
  by_cases hlen : sessions.length = 0
  · have hnil : sessions = [] := List.length_eq_zero.mp hlen
    subst hnil
    simp [getStats]
  · have hs : (getStats today sessions).streakDays
        = streakLoop (sortDesc (sessions.map (fun s => s.startDay))) today := by
      simp [getStats, hlen]
    rcases streakLoop_spec (sortDesc (sessions.map (fun s => s.startDay))) today
      (sortDesc_pairwise _) with ⟨hcov, hnot⟩
    rw [hs]
    exact ⟨fun k hk => mem_sortDesc.mp (hcov k hk),
           fun hmem => hnot (mem_sortDesc.mpr hmem)⟩

/-- A session fixture that starts on day `d` with all counters zero. -/
def sampleSession (d : Int) : SessionP :=
  { startDay := d, totalDuration := 0, versesRecited := 0, mistakesDetected := 0,
    pausesDetected := 0, averageAccuracy := 0 }

/-- Witness for `getStats_streak_spec`: three sessions on three consecutive
days ending today give the characterized streak, whose value is 3. -/
theorem getStats_streak_spec_witness :
    ((∀ k : Nat,
        k < (getStats 0 [sampleSession 0, sampleSession (-1), sampleSession (-2)]).streakDays →
        ((0 : Int) - k)
          ∈ [sampleSession 0, sampleSession (-1), sampleSession (-2)].map
              (fun s => s.startDay)) ∧
      ((0 : Int)
          - ((getStats 0 [sampleSession 0, sampleSession (-1), sampleSession (-2)]).streakDays : Int))
        ∉ [sampleSession 0, sampleSession (-1), sampleSession (-2)].map
            (fun s => s.startDay)) ∧
    (getStats 0 [sampleSession 0, sampleSession (-1), sampleSession (-2)]).streakDays = 3 :=
  ⟨getStats_streak_spec 0 [sampleSession 0, sampleSession (-1), sampleSession (-2)],
   by decide⟩

/-- The accuracy `reduce` is the sum of the per-session accuracies. -/
theorem foldl_add_accuracy (l : List SessionP) (q : ℚ) :
    l.foldl (fun sum s => sum + s.averageAccuracy) q
      = q + (l.map (fun s => s.averageAccuracy)).sum := by
  induction l generalizing q with
  | nil => simp
  | cons s ss ih => simp [ih, add_assoc]

/-- C4 (amended): for a non-empty session list, the aggregated
`averageAccuracy` is the unweighted arithmetic mean of the sessions'
`averageAccuracy` fields rounded to the nearest integer (halves up, by
`Math.round`), not the raw mean. -/
theorem getStats_averageAccuracy (today : Int) (sessions : List SessionP)
    (h : sessions ≠ []) :
    (getStats today sessions).averageAccuracy
      = (mathRound ((sessions.map (fun s => s.averageAccuracy)).sum
          / (sessions.length : ℚ)) : ℚ) := by
  have hlen : ¬ sessions.length = 0 := fun h0 => h (List.length_eq_zero.mp h0)
  simp [getStats, hlen, foldl_add_accuracy]

/-- A session fixture with accuracy 0, starting today. -/
def lowSession : SessionP :=
  { startDay := 0, totalDuration := 0, versesRecited := 0, mistakesDetected := 0,
    pausesDetected := 0, averageAccuracy := 0 }

/-- A session fixture with accuracy 1, starting today. -/
def highSession : SessionP :=
  { startDay := 0, totalDuration := 0, versesRecited := 0, mistakesDetected := 0,
    pausesDetected := 0, averageAccuracy := 1 }

/-- Witness for `getStats_averageAccuracy` on a two-session list. -/
theorem getStats_averageAccuracy_witness :
    (getStats 0 [lowSession, highSession]).averageAccuracy
      = (mathRound (([lowSession, highSession].map (fun s => s.averageAccuracy)).sum
          / (([lowSession, highSession] : List SessionP).length : ℚ)) : ℚ) :=
  getStats_averageAccuracy 0 [lowSession, highSession] (by simp)

/-- C4 (counterexample): with two sessions of accuracies 0 and 1 the mean is
1/2, but the aggregate reported is `Math.round(1/2) = 1`. -/
theorem getStats_averageAccuracy_not_mean :
    (getStats 0 [lowSession, highSession]).averageAccuracy
      ≠ (lowSession.averageAccuracy + highSession.averageAccuracy)
          / (([lowSession, highSession] : List SessionP).length : ℚ) := by
  have hval : (getStats 0 [lowSession, highSession]).averageAccuracy = 1 := by
    simp [getStats, lowSession, highSession, mathRound]
    norm_num
  rw [hval]
  simp [lowSession, highSession]

/-- C6: ending an open session prepends the closed session to the history
and keeps only the first 50 entries: the result never exceeds 50, its head is
the newly closed session, nothing is evicted while the history is below the
cap, and at a full 50-entry history exactly the last (oldest) entry is
dropped. -/
theorem endSession_history (now : Int) (st : BikeModeState) (cs : BikeSession)
    (h : st.currentSession = some cs) :
    (endSession now st).sessionHistory.length ≤ 50 ∧
    (endSession now st).sessionHistory.head? = some (closeSession now cs) ∧
    (endSession now st).sessionHistory
      = closeSession now cs :: st.sessionHistory.take 49 ∧
    (st.sessionHistory.length < 50 →
      (endSession now st).sessionHistory = closeSession now cs :: st.sessionHistory) ∧
    (st.sessionHistory.length = 50 →
      (endSession now st).sessionHistory
        = closeSession now cs :: st.sessionHistory.dropLast) := by
  have hist : (endSession now st).sessionHistory
      = (closeSession now cs :: st.sessionHistory).take 50 := by
    simp [endSession, h]
  have htake : (closeSession now cs :: st.sessionHistory).take 50
      = closeSession now cs :: st.sessionHistory.take 49 := rfl
  rw [hist, htake]
  refine ⟨?_, rfl, rfl, ?_, ?_⟩
  · simp only [List.length_cons, List.length_take]
    omega
  · intro h50
    rw [List.take_of_length_le (by omega)]
  · intro h50
    rw [List.dropLast_eq_take, h50]

/-- A closed-counter session fixture for the history witness. -/
def sampleBikeSession : BikeSession :=
  { id := [], startTime := 0, endTime := none, versesRecited := 0,
    pausesDetected := 0, mistakesDetected := 0, totalDuration := 0,
    averageAccuracy := 0, surahsCompleted := [] }

/-- A provider state fixture: an open session over a full 50-entry history. -/
def fullState : BikeModeState :=
  { currentSession := some sampleBikeSession,
    sessionHistory := List.replicate 50 sampleBikeSession }

/-- Witness for `endSession_history`: ending a session over a full 50-entry
history. -/
theorem endSession_history_witness :
    (endSession 0 fullState).sessionHistory.length ≤ 50 ∧
    (endSession 0 fullState).sessionHistory.head?
      = some (closeSession 0 sampleBikeSession) ∧
    (endSession 0 fullState).sessionHistory
      = closeSession 0 sampleBikeSession :: fullState.sessionHistory.take 49 ∧
    (fullState.sessionHistory.length < 50 →
      (endSession 0 fullState).sessionHistory
        = closeSession 0 sampleBikeSession :: fullState.sessionHistory) ∧
    (fullState.sessionHistory.length = 50 →
      (endSession 0 fullState).sessionHistory
        = closeSession 0 sampleBikeSession :: fullState.sessionHistory.dropLast) :=
  endSession_history 0 fullState sampleBikeSession rfl
